import Mathlib

/-!
Mempool reactor and RocksDB wrapper: a shallow embedding.

Source files embedded here:

* `mempool/reactor.go`: the peer-ID allocator (`mempoolIDs`), the message
  codec (`decodeMsg`), the ingress handler (`receiveImpl`) and one pass of the
  body of the per-peer loop (`broadcastTxRoutine`).
* `libs/db/rocks_db.go`: `Get`, `Has`, `Set`, `Delete` of `RocksDB`.

Conventions: a `uint16` is a `Nat` below `65536` and `x++` is
`(x + 1) % 65536`; an `int64` is an `Int` and `x - 1` is wrapped to the signed
64-bit range; a Go map with value type `struct{}` is a `Finset` of its keys; a
Go map `K -> V` is a function `K → Option V` (`none`: key absent); a `[]byte`
whose nil-ness matters is an `Option (List UInt8)`.
-/

namespace mempool

/-! ## Constants of `mempool/reactor.go` -/

/-- Channel tag `MempoolChannel = byte(0x30)`. -/
def MempoolChannel : Nat := 0x30

/-- Constant `maxMsgSize = 1048576`. -/
def maxMsgSize : Nat := 1048576

/-- Constant `maxTxSize = maxMsgSize - 8`. -/
def maxTxSize : Nat := maxMsgSize - 8

/-- Constant `peerCatchupSleepIntervalMS = 100`. -/
def peerCatchupSleepIntervalMS : Nat := 100

/-- Constant `UnknownPeerID uint16 = 0`. -/
def UnknownPeerID : Nat := 0

/-- Constant `maxActiveIDs = math.MaxUint16`. -/
def maxActiveIDs : Nat := 65535

/-! ## The peer-ID allocator -/

/-- Peer identity `p2p.ID`, a string type. -/
abbrev ID := String

/-- The statement `x++` on a `uint16`. -/
def incr16 (x : Nat) : Nat := (x + 1) % 65536

/-- The struct `mempoolIDs` without its mutex: `peerMap map[p2p.ID]uint16`,
`nextID uint16`, `activeIDs map[uint16]struct{}`. -/
structure mempoolIDs where
  peerMap : ID → Option Nat
  nextID : Nat
  activeIDs : Finset Nat

/-- Ways in which a call of the allocator fails to return: the `panic` of
`nextPeerID`, or its `for idExists` loop never exiting. -/
inductive Fault where
  | panicMaxActiveIDs
  | searchNeverExits
  deriving DecidableEq, Repr

/-- The loop of `nextPeerID`,
`_, idExists := activeIDs[nextID]; for idExists { nextID++; _, idExists = activeIDs[nextID] }`,
allowed at most `fuel` membership tests; the result is the value of `nextID`
at loop exit. -/
def searchLoop (activeIDs : Finset Nat) : Nat → Nat → Option Nat
  | 0, _ => none
  | fuel + 1, nextID =>
    if nextID ∈ activeIDs then searchLoop activeIDs fuel (incr16 nextID) else some nextID

/-- Method `nextPeerID`: panics when `len(activeIDs) == maxActiveIDs`, else
searches from `nextID` for an ID that is not active, returns it and leaves
`nextID` one past it. The loop gets `65536` membership tests: after that many
the `uint16` cursor is back where it started with the map unchanged, so a
search that has not exited by then never exits. -/
def nextPeerID (ids : mempoolIDs) : Except Fault (Nat × mempoolIDs) :=
  if ids.activeIDs.card = maxActiveIDs then
    Except.error Fault.panicMaxActiveIDs
  else
    match searchLoop ids.activeIDs 65536 ids.nextID with
    | none => Except.error Fault.searchNeverExits
    | some curID => Except.ok (curID, ⟨ids.peerMap, incr16 curID, ids.activeIDs⟩)

/-- Method `ReserveForPeer`: `curID := ids.nextPeerID()`,
`ids.peerMap[peer.ID()] = curID`, `ids.activeIDs[curID] = struct{}{}`. -/
def ReserveForPeer (ids : mempoolIDs) (peer : ID) : Except Fault mempoolIDs :=
  match nextPeerID ids with
  | Except.error e => Except.error e
  | Except.ok (curID, ids1) =>
    Except.ok ⟨fun q => if q = peer then some curID else ids1.peerMap q,
      ids1.nextID, insert curID ids1.activeIDs⟩

/-- Method `Reclaim`: when `peerMap` has the peer, delete its ID from
`activeIDs` and the peer from `peerMap`. -/
def Reclaim (ids : mempoolIDs) (peer : ID) : mempoolIDs :=
  match ids.peerMap peer with
  | some removedID =>
    ⟨fun q => if q = peer then none else ids.peerMap q, ids.nextID,
      ids.activeIDs.erase removedID⟩
  | none => ids

/-- Method `GetForPeer`: `ids.peerMap[peer.ID()]`, the zero value when the key
is absent. -/
def GetForPeer (ids : mempoolIDs) (peer : ID) : Nat :=
  (ids.peerMap peer).getD 0

/-- Constructor `newMempoolIDs`: empty `peerMap`, `activeIDs = {0}`,
`nextID = 1`. -/
def newMempoolIDs : mempoolIDs := ⟨fun _ => none, 1, {0}⟩

/-- One call of the allocator's mutating interface. -/
inductive Call where
  | reserve (peer : ID)
  | reclaim (peer : ID)
  deriving DecidableEq, Repr

/-- Effect of one call on the allocator. -/
def Call.apply (c : Call) (ids : mempoolIDs) : Except Fault mempoolIDs :=
  match c with
  | Call.reserve peer => ReserveForPeer ids peer
  | Call.reclaim peer => Except.ok (Reclaim ids peer)

/-- A sequence of calls, stopping at the first one that does not return. -/
def runCalls : List Call → mempoolIDs → Except Fault mempoolIDs
  | [], ids => Except.ok ids
  | c :: cs, ids =>
    match c.apply ids with
    | Except.error e => Except.error e
    | Except.ok ids1 => runCalls cs ids1

/-- `ReserveForPeer` for each peer of a list in turn. -/
def reserveAll (peers : List ID) (ids : mempoolIDs) : Except Fault mempoolIDs :=
  runCalls (peers.map Call.reserve) ids

/-- The allocator invariant: 0 is marked active, every assigned ID is marked
active and is not 0, and no ID is assigned to two peers. -/
def IDsConsistent (s : mempoolIDs) : Prop :=
  0 ∈ s.activeIDs ∧
  (∀ p i, s.peerMap p = some i → i ∈ s.activeIDs ∧ i ≠ 0) ∧
  (∀ p q i, s.peerMap p = some i → s.peerMap q = some i → p = q)

/-- The active set is exactly 0 together with the IDs that peers hold. -/
def ActiveExact (s : mempoolIDs) : Prop :=
  ∀ i, i ∈ s.activeIDs ↔ (i = 0 ∨ ∃ p, s.peerMap p = some i)

/-- Whether an allocator call returned. -/
def returned (r : Except Fault mempoolIDs) : Bool :=
  match r with
  | Except.ok _ => true
  | Except.error _ => false

/-- A peer identity for each number: `n + 1` copies of the letter `p`. -/
def peerName (n : Nat) : ID := String.mk (List.replicate (n + 1) 'p')

/-- The first `n` of the peer identities `peerName 0, peerName 1, ...`. -/
def samplePeers (n : Nat) : List ID := (List.range n).map peerName

/-! ## Message codec and ingress handler -/

/-- A Go byte slice. -/
abbrev Bytes := List UInt8

/-- The struct `TxMessage`, with its one field `Tx types.Tx`. -/
structure TxMessage where
  Tx : Bytes
  deriving DecidableEq, Repr

/-- A decoded `MempoolMessage` (an empty interface in the source): the one
registered concrete type `*TxMessage`, or a value of some other dynamic type,
which `receiveImpl` sends to its `default` branch. -/
inductive MempoolMessage where
  | txMessage (m : TxMessage)
  | other (typeName : String)
  deriving DecidableEq, Repr

/-- The `error` values `decodeMsg` can return: its own
`fmt.Errorf("Msg exceeds max size (%d > %d)", len(bz), maxMsgSize)`, or whatever
`cdc.UnmarshalBinaryBare` reported. -/
inductive DecodeError where
  | exceedsMaxSize (len max : Nat)
  | unmarshal (reason : String)
  deriving DecidableEq, Repr

/-- Function `decodeMsg`. The amino codec is outside this repository, so
`cdc.UnmarshalBinaryBare` is the parameter `unmarshal`. -/
def decodeMsg (unmarshal : Bytes → Except String MempoolMessage) (bz : Bytes) :
    Except DecodeError MempoolMessage :=
  if bz.length > maxMsgSize then
    Except.error (DecodeError.exceedsMaxSize bz.length maxMsgSize)
  else
    match unmarshal bz with
    | Except.error e => Except.error (DecodeError.unmarshal e)
    | Except.ok msg => Except.ok msg

/-- The struct literal `TxInfo{PeerID: ..., FromPersistent: ...}` built by
`receiveImpl`. -/
structure TxInfo where
  PeerID : Nat
  FromPersistent : Bool
  deriving DecidableEq, Repr

/-- What `Mempool.CheckTxWithInfo` can report besides `nil`: the sentinel
`ErrTxInCache`, or any other error. -/
inductive AdmitError where
  | ErrTxInCache
  | otherError (reason : String)
  deriving DecidableEq, Repr

/-- Calls that `receiveImpl` makes on its collaborators, in program order. -/
inductive RecvEffect where
  | logError (msg : String)
  | StopPeerForError (src : ID) (err : DecodeError)
  | logDebug (msg : String)
  | metricReceivedTx (peer : ID)
  | CheckTxWithInfo (tx : Bytes) (info : TxInfo)
  | metricDuplicateTx (peer : ID)
  | logInfo (msg : String)
  deriving DecidableEq, Repr

/-- Method `receiveImpl`, as the list of calls it makes. The source peer is
given by its `ID`; `isPersistent` is `Switch.IsPersistent` and `checkTx` is the
result `Mempool.CheckTxWithInfo` returns. -/
def receiveImpl (unmarshal : Bytes → Except String MempoolMessage) (ids : mempoolIDs)
    (isPersistent : ID → Bool) (checkTx : Bytes → TxInfo → Option AdmitError)
    (_chID : Nat) (src : ID) (msgBytes : Bytes) : List RecvEffect :=
  match decodeMsg unmarshal msgBytes with
  | Except.error err =>
    [RecvEffect.logError "Error decoding message", RecvEffect.StopPeerForError src err]
  | Except.ok msg =>
    RecvEffect.logDebug "Receive" ::
      match msg with
      | MempoolMessage.txMessage m =>
        let peerID := GetForPeer ids src
        let info : TxInfo := ⟨peerID, isPersistent src⟩
        [RecvEffect.metricReceivedTx src, RecvEffect.CheckTxWithInfo m.Tx info] ++
          match checkTx m.Tx info with
          | none => []
          | some err =>
            (if err = AdmitError.ErrTxInCache then [RecvEffect.metricDuplicateTx src] else []) ++
              [RecvEffect.logInfo "Could not check tx"]
      | MempoolMessage.other _ => [RecvEffect.logError "Unknown message type"]

/-! ## Per-peer broadcaster -/

/-- Modelled from the spec: the type `cfg.MempoolConfig` is declared outside the
files embedded here; these are the three options `broadcastTxRoutine` reads
(`broadcast`, `only_persistent`, `broadcast_from_non_persistent`). -/
structure MempoolConfig where
  Broadcast : Bool
  OnlyPersistent : Bool
  BroadcastFromNonePersistent : Bool
  deriving DecidableEq, Repr

/-- Modelled from the spec: the type `mempoolTx` is declared outside the files
embedded here; a mempool entry is the transaction payload, the block height at
admission (an `int64`), the set `senders` of numeric peer IDs, and the "came
from a persistent peer" flag. -/
structure mempoolTx where
  height : Int
  tx : Bytes
  senders : Finset Nat
  fromPersistent : Bool
  deriving DecidableEq

/-- Modelled from the spec: the type `clist.CElement` is declared outside the
files embedded here; a list element is known by its address and carries its
`Value`. What `Next()` returns is an observation of the environment. -/
structure CElement where
  addr : Nat
  Value : mempoolTx
  deriving DecidableEq

/-- Two's-complement wrap of an integer to the `int64` range
`-2^63 .. 2^63 - 1`. -/
def wrapInt64 (x : Int) : Int :=
  (x + 9223372036854775808) % 18446744073709551616 - 9223372036854775808

/-- The values of type `int64`. -/
def isInt64 (x : Int) : Prop := -9223372036854775808 ≤ x ∧ x ≤ 9223372036854775807

/-- Outcome of the first `select` of the loop, taken when `next == nil`:
`TxsWaitChan` fired and `TxsFront()` returned `front`, or a quit channel
fired. -/
inductive FrontWait where
  | txsAvailable (front : Option CElement)
  | peerQuit
  | reactorQuit
  deriving DecidableEq

/-- Outcome of the last `select` of the loop: `NextWaitChan` fired and
`next.Next()` returned `nxt`, or a quit channel fired. -/
inductive NextWait where
  | nextReady (nxt : Option CElement)
  | peerQuit
  | reactorQuit
  deriving DecidableEq

/-- Everything one pass of the loop body reads from outside: the two
`IsRunning` flags, the outcomes of the two `select`s, the height of the
`PeerState` stored under `types.PeerStateKey` (`none`: the type assertion
fails), and the result of `peer.Send`. -/
structure IterEnv where
  memRRunning : Bool
  peerRunning : Bool
  frontWait : FrontWait
  peerState : Option Int
  sendSuccess : Bool
  nextWait : NextWait
  deriving DecidableEq

/-- Calls one pass of the loop body makes: `peer.Send(chID, encode(msg))`,
recorded with the message before encoding, and `time.Sleep` in
milliseconds. -/
inductive BcastEffect where
  | Send (chID : Nat) (msg : TxMessage)
  | Sleep (ms : Nat)
  deriving DecidableEq, Repr

/-- How one pass of the loop body ends: `return`, or the next pass with the
cursor `next` holding the given value. -/
inductive Control where
  | exit
  | again (next : Option CElement)
  deriving DecidableEq

/-- The final `select` of the loop body (the advance step). -/
def advanceStep (env : IterEnv) (effects : List BcastEffect) : List BcastEffect × Control :=
  match env.nextWait with
  | NextWait.nextReady nxt => (effects, Control.again nxt)
  | NextWait.peerQuit => (effects, Control.exit)
  | NextWait.reactorQuit => (effects, Control.exit)

/-- The loop body from `memTx := next.Value.(*mempoolTx)` to its end, for a
cursor `next` that is not nil. -/
def elementStep (config : MempoolConfig) (peerID : Nat) (env : IterEnv) (next : CElement) :
    List BcastEffect × Control :=
  let memTx := next.Value
  if config.BroadcastFromNonePersistent && memTx.fromPersistent then
    ([], Control.again (some next))
  else
    match env.peerState with
    | none => ([BcastEffect.Sleep peerCatchupSleepIntervalMS], Control.again (some next))
    | some peerHeight =>
      if peerHeight < wrapInt64 (memTx.height - 1) then
        ([BcastEffect.Sleep peerCatchupSleepIntervalMS], Control.again (some next))
      else if peerID ∈ memTx.senders then
        advanceStep env []
      else if env.sendSuccess then
        advanceStep env [BcastEffect.Send MempoolChannel ⟨memTx.tx⟩]
      else
        ([BcastEffect.Send MempoolChannel ⟨memTx.tx⟩,
          BcastEffect.Sleep peerCatchupSleepIntervalMS], Control.again (some next))

/-- One pass of the body of the `for` loop of `broadcastTxRoutine`, entered
with cursor `next` for the destination peer whose numeric ID is `peerID`. -/
def broadcastTxIteration (config : MempoolConfig) (peerID : Nat) (env : IterEnv)
    (next : Option CElement) : List BcastEffect × Control :=
  if !env.memRRunning || !env.peerRunning then
    ([], Control.exit)
  else
    match next with
    | some e => elementStep config peerID env e
    | none =>
      match env.frontWait with
      | FrontWait.txsAvailable (some e) => elementStep config peerID env e
      | FrontWait.txsAvailable none => ([], Control.again none)
      | FrontWait.peerQuit => ([], Control.exit)
      | FrontWait.reactorQuit => ([], Control.exit)

/-- The element a pass looks at: the cursor, or, when the cursor is nil, the
front element delivered by the first `select`. -/
def elementUnderCursor (env : IterEnv) (next : Option CElement) : Option CElement :=
  match next with
  | some e => some e
  | none =>
    match env.frontWait with
    | FrontWait.txsAvailable front => front
    | _ => none

/-- The `for` loop of `broadcastTxRoutine` over a finite run of observations:
the calls made, and `none` when the routine returned or `some cursor` when it
is still looping after the last observation. -/
def broadcastLoop (config : MempoolConfig) (peerID : Nat) :
    List IterEnv → Option CElement → List BcastEffect × Option (Option CElement)
  | [], next => ([], some next)
  | env :: envs, next =>
    match broadcastTxIteration config peerID env next with
    | (effects, Control.exit) => (effects, none)
    | (effects, Control.again nxt) =>
      let rest := broadcastLoop config peerID envs nxt
      (effects ++ rest.1, rest.2)

/-- Method `broadcastTxRoutine`: the configuration check, the one-time
`peerID := memR.ids.GetForPeer(peer)`, then the loop from a nil cursor. -/
def broadcastTxRoutine (config : MempoolConfig) (peerIsPersistent : Bool) (ids : mempoolIDs)
    (peer : ID) (envs : List IterEnv) : List BcastEffect × Option (Option CElement) :=
  if !config.Broadcast || (config.OnlyPersistent && !peerIsPersistent) then
    ([], none)
  else
    broadcastLoop config (GetForPeer ids peer) envs none

end mempool

namespace db

/-- Contents of the underlying `gorocksdb.DB`: each key is absent or has a
value. The library is outside this repository; its `GetBytes` returns nil for
an absent key and the stored bytes (non-nil, possibly empty) for a present
one. -/
abbrev Store := List UInt8 → Option (List UInt8)

/-- The struct `RocksDB`: the handle `db`; the option objects carry no data
that `Get`, `Has`, `Set` or `Delete` depend on. -/
structure RocksDB where
  db : Store

/-- Library call `gorocksdb.DB.GetBytes` on an in-memory store, which never
reports an error. -/
def gorocksdbGetBytes (store : Store) (key : List UInt8) : Except String (Option (List UInt8)) :=
  Except.ok (store key)

/-- Library call `gorocksdb.DB.Put` on an in-memory store. -/
def gorocksdbPut (store : Store) (key value : List UInt8) : Except String Store :=
  Except.ok (fun k => if k = key then some value else store k)

/-- Library call `gorocksdb.DB.Delete` on an in-memory store. -/
def gorocksdbDelete (store : Store) (key : List UInt8) : Except String Store :=
  Except.ok (fun k => if k = key then none else store k)

/-- Method `RocksDB.Get`; `Except.error` is `panic(err)`. The helper
`nonNilBytes` is declared outside the files embedded here and is a
parameter. -/
def RocksDB.Get (nonNilBytes : Option (List UInt8) → List UInt8) (db : RocksDB)
    (key : Option (List UInt8)) : Except String (Option (List UInt8)) :=
  match gorocksdbGetBytes db.db (nonNilBytes key) with
  | Except.error err => Except.error err
  | Except.ok res => Except.ok res

/-- Method `RocksDB.Has`: `return db.Get(key) == nil`. -/
def RocksDB.Has (nonNilBytes : Option (List UInt8) → List UInt8) (db : RocksDB)
    (key : Option (List UInt8)) : Except String Bool :=
  match RocksDB.Get nonNilBytes db key with
  | Except.error err => Except.error err
  | Except.ok res => Except.ok (res == none)

/-- Method `RocksDB.Set`; `Except.error` is `panic(err)`. -/
def RocksDB.Set (nonNilBytes : Option (List UInt8) → List UInt8) (db : RocksDB)
    (key value : Option (List UInt8)) : Except String RocksDB :=
  match gorocksdbPut db.db (nonNilBytes key) (nonNilBytes value) with
  | Except.error err => Except.error err
  | Except.ok store => Except.ok ⟨store⟩

/-- Method `RocksDB.Delete`; `Except.error` is `panic(err)`. -/
def RocksDB.Delete (nonNilBytes : Option (List UInt8) → List UInt8) (db : RocksDB)
    (key : Option (List UInt8)) : Except String RocksDB :=
  match gorocksdbDelete db.db (nonNilBytes key) with
  | Except.error err => Except.error err
  | Except.ok store => Except.ok ⟨store⟩

end db


open mempool

/-! ## The search loop of `nextPeerID` -/

theorem incr16_lt (n : Nat) : incr16 n < 65536 := by
  unfold incr16
  omega

theorem searchLoop_not_mem (A : Finset Nat) :
    ∀ (fuel n c : Nat), searchLoop A fuel n = some c → c ∉ A := by
  intro fuel
  induction fuel with
  | zero => intro n c h; simp [searchLoop] at h
  | succ f ih =>
    intro n c h
    by_cases hn : n ∈ A
    · simp only [searchLoop, hn, if_true] at h
      exact ih _ _ h
    · simp only [searchLoop, hn, if_false, Option.some.injEq] at h
      exact h ▸ hn

/-- The loop exits at the first offset `k` from the cursor whose value is not
active, provided it is given more than `k` membership tests. -/
theorem searchLoop_first_free (A : Finset Nat) :
    ∀ (k fuel n : Nat), k < fuel → n < 65536 →
      (∀ j, j < k → (n + j) % 65536 ∈ A) → (n + k) % 65536 ∉ A →
      searchLoop A fuel n = some ((n + k) % 65536) := by
  intro k
  induction k with
  | zero =>
    intro fuel n hf hn _ hfree
    obtain ⟨f, rfl⟩ : ∃ f, fuel = f + 1 := ⟨fuel - 1, by omega⟩
    have hmod : (n + 0) % 65536 = n := by omega
    rw [hmod] at hfree ⊢
    simp [searchLoop, hfree]
  | succ k ih =>
    intro fuel n hf hn hbusy hfree
    obtain ⟨f, rfl⟩ : ∃ f, fuel = f + 1 := ⟨fuel - 1, by omega⟩
    have h0 : n ∈ A := by
      have := hbusy 0 (by omega)
      have hmod : (n + 0) % 65536 = n := by omega
      rwa [hmod] at this
    have hstep : ∀ j, (incr16 n + j) % 65536 = (n + (j + 1)) % 65536 := by
      intro j
      unfold incr16
      omega
    simp only [searchLoop, h0, if_true]
    rw [← hstep k]
    apply ih f (incr16 n) (by omega) (incr16_lt n)
    · intro j hj
      rw [hstep j]
      exact hbusy (j + 1) (by omega)
    · rw [hstep k]
      exact hfree

/-- A set of `uint16` values with fewer than `65536` members misses one of
them, and that one lies at some offset from any cursor. -/
theorem exists_free_offset (A : Finset Nat) (n : Nat)
    (hcard : A.card < 65536) (hn : n < 65536) :
    ∃ k, k < 65536 ∧ (n + k) % 65536 ∉ A := by
  have hex : ∃ v, v < 65536 ∧ v ∉ A := by
    by_contra hno
    have hsub : Finset.range 65536 ⊆ A := by
      intro v hv
      by_contra hvA
      exact hno ⟨v, Finset.mem_range.mp hv, hvA⟩
    have := Finset.card_le_card hsub
    rw [Finset.card_range] at this
    omega
  obtain ⟨v, hv, hvA⟩ := hex
  refine ⟨(v + 65536 - n) % 65536, by omega, ?_⟩
  have : (n + (v + 65536 - n) % 65536) % 65536 = v := by omega
  rw [this]
  exact hvA

/-- The least free offset from the cursor. -/
theorem exists_first_free_offset (A : Finset Nat) (n : Nat)
    (hcard : A.card < 65536) (hn : n < 65536) :
    ∃ k, k < 65536 ∧ (n + k) % 65536 ∉ A ∧ ∀ j, j < k → (n + j) % 65536 ∈ A := by
  classical
  have hex : ∃ k, k < 65536 ∧ (n + k) % 65536 ∉ A := exists_free_offset A n hcard hn
  refine ⟨Nat.find hex, (Nat.find_spec hex).1, (Nat.find_spec hex).2, ?_⟩
  intro j hj
  by_contra hjA
  exact Nat.find_min hex hj ⟨by have := (Nat.find_spec hex).1; omega, hjA⟩

/-- When every value reachable from the cursor is active, no number of
membership tests lets the loop exit. -/
theorem searchLoop_all_busy (A : Finset Nat) :
    ∀ (fuel n : Nat), n < 65536 → (∀ k, (n + k) % 65536 ∈ A) → searchLoop A fuel n = none := by
  intro fuel
  induction fuel with
  | zero => intro n _ _; simp [searchLoop]
  | succ f ih =>
    intro n hn hall
    have h0 : n ∈ A := by
      have := hall 0
      have hmod : (n + 0) % 65536 = n := by omega
      rwa [hmod] at this
    simp only [searchLoop, h0, if_true]
    apply ih (incr16 n) (incr16_lt n)
    intro k
    have : (incr16 n + k) % 65536 = (n + (k + 1)) % 65536 := by
      unfold incr16
      omega
    rw [this]
    exact hall (k + 1)

/-- A search that has not exited after `65536` membership tests met every
`uint16` value in the map, so it exits after no number of tests: the fault
`searchNeverExits` stands for a loop that runs forever. -/
theorem searchLoop_none_forever (A : Finset Nat) (n : Nat) (hn : n < 65536)
    (h : searchLoop A 65536 n = none) : ∀ fuel, searchLoop A fuel n = none := by
  have hall : ∀ k, (n + k) % 65536 ∈ A := by
    intro k
    by_contra hk
    have hex : ∃ k, (n + k) % 65536 ∉ A := ⟨k, hk⟩
    classical
    have hmin : ∀ j, j < Nat.find hex → (n + j) % 65536 ∈ A := by
      intro j hj
      by_contra hjA
      exact Nat.find_min hex hj hjA
    have hlt : Nat.find hex < 65536 := by
      by_contra hge
      have hge : 65536 ≤ Nat.find hex := by omega
      have hin := hmin (Nat.find hex - 65536) (by omega)
      have heq : (n + (Nat.find hex - 65536)) % 65536 = (n + Nat.find hex) % 65536 := by omega
      rw [heq] at hin
      exact Nat.find_spec hex hin
    have := searchLoop_first_free A (Nat.find hex) 65536 n hlt hn hmin (Nat.find_spec hex)
    rw [h] at this
    exact Option.noConfusion this
  intro fuel
  exact searchLoop_all_busy A fuel n hn hall

/-- A search that exits within some number of membership tests exits with the
same value within `65536` of them. -/
theorem searchLoop_fuel_enough (A : Finset Nat) (n fuel c : Nat) (hn : n < 65536)
    (h : searchLoop A fuel n = some c) : searchLoop A 65536 n = some c := by
  cases hs : searchLoop A 65536 n with
  | none =>
    rw [searchLoop_none_forever A n hn hs fuel] at h
    exact Option.noConfusion h
  | some d =>
    have hmono : ∀ (f g m : Nat) (x : Nat), searchLoop A f m = some x → f ≤ g →
        searchLoop A g m = some x := by
      intro f
      induction f with
      | zero => intro g m x hx _; simp [searchLoop] at hx
      | succ f ih =>
        intro g m x hx hfg
        obtain ⟨g, rfl⟩ : ∃ g1, g = g1 + 1 := ⟨g - 1, by omega⟩
        by_cases hm : m ∈ A
        · simp only [searchLoop, hm, if_true] at hx ⊢
          exact ih g _ x hx (by omega)
        · simp only [searchLoop, hm, if_false] at hx ⊢
          exact hx
    rcases Nat.le_total fuel 65536 with hle | hle
    · have := hmono fuel 65536 n c h hle
      rw [hs] at this
      exact this
    · have := hmono 65536 fuel n d hs hle
      rw [h] at this
      rw [this]

/-! ## `nextPeerID` and `ReserveForPeer` -/

theorem nextPeerID_of_search (s : mempoolIDs) (c : Nat)
    (hcard : s.activeIDs.card ≠ 65535) (hs : searchLoop s.activeIDs 65536 s.nextID = some c) :
    nextPeerID s = Except.ok (c, ⟨s.peerMap, incr16 c, s.activeIDs⟩) := by
  unfold nextPeerID
  rw [if_neg (by simpa [maxActiveIDs] using hcard), hs]

theorem ReserveForPeer_of_search (s : mempoolIDs) (p : ID) (c : Nat)
    (hcard : s.activeIDs.card ≠ 65535) (hs : searchLoop s.activeIDs 65536 s.nextID = some c) :
    ReserveForPeer s p =
      Except.ok ⟨fun q => if q = p then some c else s.peerMap q, incr16 c,
        insert c s.activeIDs⟩ := by
  unfold ReserveForPeer
  rw [nextPeerID_of_search s c hcard hs]

theorem ReserveForPeer_panic (s : mempoolIDs) (p : ID) (hcard : s.activeIDs.card = 65535) :
    ReserveForPeer s p = Except.error Fault.panicMaxActiveIDs := by
  unfold ReserveForPeer nextPeerID
  rw [if_pos (by simpa [maxActiveIDs] using hcard)]

/-- Whatever `ReserveForPeer` returns was built from an ID outside the active
set. -/
theorem ReserveForPeer_ok_inv (s s1 : mempoolIDs) (p : ID)
    (h : ReserveForPeer s p = Except.ok s1) :
    ∃ c, c ∉ s.activeIDs ∧ s1.peerMap = (fun q => if q = p then some c else s.peerMap q) ∧
      s1.nextID = incr16 c ∧ s1.activeIDs = insert c s.activeIDs := by
  unfold ReserveForPeer nextPeerID at h
  by_cases hc : s.activeIDs.card = maxActiveIDs
  · rw [if_pos hc] at h
    exact Except.noConfusion h
  · rw [if_neg hc] at h
    cases hs : searchLoop s.activeIDs 65536 s.nextID with
    | none =>
      rw [hs] at h
      exact Except.noConfusion h
    | some c =>
      rw [hs] at h
      have h1 := Except.ok.inj h
      subst h1
      exact ⟨c, searchLoop_not_mem _ _ _ _ hs, rfl, rfl, rfl⟩

/-- C3. For every allocator state whose active set has fewer than 65535
entries (cursor in the 16-bit range) and every peer, `ReserveForPeer` returns;
the ID it assigns is the first value of the cyclic sequence cursor, cursor+1,
... (mod 65536) that is not active; afterwards the peer maps to that value,
the value is active, the cursor is the value plus one (mod 65536), and no
other peer's mapping has changed. -/
theorem ReserveForPeer_assigns_first_free (s : mempoolIDs) (p : ID)
    (hcard : s.activeIDs.card < 65535) (hn : s.nextID < 65536) :
    ∃ k s1, k < 65536 ∧ (s.nextID + k) % 65536 ∉ s.activeIDs ∧
      (∀ j, j < k → (s.nextID + j) % 65536 ∈ s.activeIDs) ∧
      ReserveForPeer s p = Except.ok s1 ∧
      s1.peerMap p = some ((s.nextID + k) % 65536) ∧
      GetForPeer s1 p = (s.nextID + k) % 65536 ∧
      (∀ q, q ≠ p → s1.peerMap q = s.peerMap q) ∧
      s1.activeIDs = insert ((s.nextID + k) % 65536) s.activeIDs ∧
      (s.nextID + k) % 65536 ∈ s1.activeIDs ∧
      s1.nextID = ((s.nextID + k) % 65536 + 1) % 65536 := by
  obtain ⟨k, hk, hfree, hbusy⟩ :=
    exists_first_free_offset s.activeIDs s.nextID (by omega) hn
  have hs := searchLoop_first_free s.activeIDs k 65536 s.nextID hk hn hbusy hfree
  refine ⟨k, _, hk, hfree, hbusy, ReserveForPeer_of_search s p _ (by omega) hs, ?_, ?_, ?_, rfl,
    ?_, rfl⟩
  · simp
  · simp [GetForPeer]
  · intro q hq
    simp [hq]
  · simp

/-- C3, at the wrap-around: cursor 65535 with IDs 0, 1 and 65535 active; the
first free value of the cyclic sequence is 2, at offset 3. -/
theorem ReserveForPeer_assigns_first_free_witness :
    (({0, 1, 65535} : Finset Nat).card < 65535 ∧ (65535 : Nat) < 65536) ∧
    ∃ k s1, k < 65536 ∧ (65535 + k) % 65536 ∉ ({0, 1, 65535} : Finset Nat) ∧
      (∀ j, j < k → (65535 + j) % 65536 ∈ ({0, 1, 65535} : Finset Nat)) ∧
      ReserveForPeer ⟨fun _ => none, 65535, {0, 1, 65535}⟩ "a" = Except.ok s1 ∧
      s1.peerMap "a" = some ((65535 + k) % 65536) ∧
      GetForPeer s1 "a" = (65535 + k) % 65536 ∧
      (∀ q, q ≠ "a" → s1.peerMap q = none) ∧
      s1.activeIDs = insert ((65535 + k) % 65536) ({0, 1, 65535} : Finset Nat) ∧
      (65535 + k) % 65536 ∈ s1.activeIDs ∧
      s1.nextID = ((65535 + k) % 65536 + 1) % 65536 :=
  ⟨⟨by decide, by decide⟩,
    ReserveForPeer_assigns_first_free ⟨fun _ => none, 65535, {0, 1, 65535}⟩ "a"
      (by decide) (by decide)⟩

/-! ## The allocator invariant -/

theorem exists_of_returned (r : Except Fault mempoolIDs) (h : returned r = true) :
    ∃ s, r = Except.ok s := by
  cases r with
  | ok s => exact ⟨s, rfl⟩
  | error e => simp [returned] at h

theorem IDsConsistent_new : IDsConsistent newMempoolIDs := by
  refine ⟨by simp [newMempoolIDs], ?_, ?_⟩
  · intro p i h
    simp [newMempoolIDs] at h
  · intro p q i h
    simp [newMempoolIDs] at h

theorem IDsConsistent_reserve (s s1 : mempoolIDs) (p : ID) (hinv : IDsConsistent s)
    (h : ReserveForPeer s p = Except.ok s1) : IDsConsistent s1 := by
  obtain ⟨c, hc, hmap, _, hact⟩ := ReserveForPeer_ok_inv s s1 p h
  obtain ⟨h0, hval, hinj⟩ := hinv
  have hc0 : c ≠ 0 := fun e => hc (e ▸ h0)
  refine ⟨?_, ?_, ?_⟩
  · rw [hact]
    exact Finset.mem_insert_of_mem h0
  · intro q i hq
    rw [hmap] at hq
    rw [hact]
    by_cases hqp : q = p
    · simp only [hqp, if_true, Option.some.injEq] at hq
      subst hq
      exact ⟨Finset.mem_insert_self _ _, hc0⟩
    · simp only [hqp, if_false] at hq
      exact ⟨Finset.mem_insert_of_mem (hval q i hq).1, (hval q i hq).2⟩
  · intro q r i hq hr
    rw [hmap] at hq hr
    by_cases hqp : q = p <;> by_cases hrp : r = p
    · rw [hqp, hrp]
    · simp only [hqp, if_true, Option.some.injEq] at hq
      simp only [hrp, if_false] at hr
      subst hq
      exact absurd (hval r _ hr).1 hc
    · simp only [hrp, if_true, Option.some.injEq] at hr
      simp only [hqp, if_false] at hq
      subst hr
      exact absurd (hval q _ hq).1 hc
    · simp only [hqp, if_false] at hq
      simp only [hrp, if_false] at hr
      exact hinj q r i hq hr

theorem IDsConsistent_reclaim (s : mempoolIDs) (p : ID) (hinv : IDsConsistent s) :
    IDsConsistent (Reclaim s p) := by
  obtain ⟨h0, hval, hinj⟩ := hinv
  unfold Reclaim
  cases hp : s.peerMap p with
  | none => exact ⟨h0, hval, hinj⟩
  | some r =>
    have hr0 : r ≠ 0 := (hval p r hp).2
    refine ⟨?_, ?_, ?_⟩
    · exact Finset.mem_erase.mpr ⟨fun e => hr0 e.symm, h0⟩
    · intro q i hq
      by_cases hqp : q = p
      · simp [hqp] at hq
      · simp only [hqp, if_false] at hq
        refine ⟨Finset.mem_erase.mpr ⟨?_, (hval q i hq).1⟩, (hval q i hq).2⟩
        intro e
        subst e
        exact hqp (hinj q p i hq hp)
    · intro q t i hq ht
      by_cases hqp : q = p
      · simp [hqp] at hq
      · by_cases htp : t = p
        · simp [htp] at ht
        · simp only [hqp, if_false] at hq
          simp only [htp, if_false] at ht
          exact hinj q t i hq ht

theorem IDsConsistent_runCalls (calls : List Call) :
    ∀ (s s1 : mempoolIDs), IDsConsistent s → runCalls calls s = Except.ok s1 →
      IDsConsistent s1 := by
  induction calls with
  | nil =>
    intro s s1 hinv h
    simp only [runCalls] at h
    exact Except.ok.inj h ▸ hinv
  | cons c cs ih =>
    intro s s1 hinv h
    simp only [runCalls] at h
    cases c with
    | reserve p =>
      simp only [Call.apply] at h
      cases hr : ReserveForPeer s p with
      | error e =>
        rw [hr] at h
        exact Except.noConfusion h
      | ok s2 =>
        rw [hr] at h
        exact ih s2 s1 (IDsConsistent_reserve s s2 p hinv hr) h
    | reclaim p =>
      simp only [Call.apply] at h
      exact ih _ s1 (IDsConsistent_reclaim s p hinv) h

/-- C1. In every allocator state reached from `newMempoolIDs` by a sequence of
`ReserveForPeer` and `Reclaim` calls that all return, no two distinct peers
hold the same ID and no peer is mapped to 0; and a further `ReserveForPeer`
that returns assigns an ID that is not 0 and that no other peer holds. -/
theorem reachable_ids_unique (calls : List Call) (s : mempoolIDs)
    (h : runCalls calls newMempoolIDs = Except.ok s) :
    (∀ p q i, s.peerMap p = some i → s.peerMap q = some i → p = q) ∧
    (∀ p, s.peerMap p ≠ some 0) ∧
    (∀ p s1, ReserveForPeer s p = Except.ok s1 →
      ∃ c, s1.peerMap p = some c ∧ c ≠ 0 ∧ ∀ q, q ≠ p → s.peerMap q ≠ some c) := by
  obtain ⟨h0, hval, hinj⟩ := IDsConsistent_runCalls calls _ s IDsConsistent_new h
  refine ⟨hinj, fun p hp => (hval p 0 hp).2 rfl, ?_⟩
  intro p s1 hs1
  obtain ⟨c, hc, hmap, _, _⟩ := ReserveForPeer_ok_inv s s1 p hs1
  refine ⟨c, by simp [hmap], fun e => hc (e ▸ h0), ?_⟩
  intro q _ hq
  exact hc (hval q c hq).1

/-- C1, on the run reserve a, reserve b, reclaim a, reserve c, reserve b. -/
theorem reachable_ids_unique_witness :
    ∃ s, runCalls [Call.reserve "a", Call.reserve "b", Call.reclaim "a", Call.reserve "c",
        Call.reserve "b"] newMempoolIDs = Except.ok s ∧
      (∀ p q i, s.peerMap p = some i → s.peerMap q = some i → p = q) ∧
      (∀ p, s.peerMap p ≠ some 0) ∧
      (∀ p s1, ReserveForPeer s p = Except.ok s1 →
        ∃ c, s1.peerMap p = some c ∧ c ≠ 0 ∧ ∀ q, q ≠ p → s.peerMap q ≠ some c) :=
  Exists.elim (exists_of_returned _ (by decide))
    (fun s hs => ⟨s, hs, reachable_ids_unique _ s hs⟩)

/-! ## `Reclaim` -/

theorem Reclaim_of_none (s : mempoolIDs) (p : ID) (h : s.peerMap p = none) :
    Reclaim s p = s := by
  unfold Reclaim
  rw [h]

theorem Reclaim_peerMap_self (s : mempoolIDs) (p : ID) : (Reclaim s p).peerMap p = none := by
  unfold Reclaim
  cases hp : s.peerMap p with
  | none => exact hp
  | some r => simp

/-- What `Reclaim` does in any state, including ones no run produces: the
peer's lookup becomes 0, the ID it held leaves the active set, other peers and
the cursor are untouched, 0 keeps its membership unless the peer held 0, an
unmapped peer leaves the state as it is, and a second `Reclaim` changes
nothing. -/
theorem Reclaim_frame (s : mempoolIDs) (p : ID) :
    GetForPeer (Reclaim s p) p = UnknownPeerID ∧
    (∀ r, s.peerMap p = some r → r ∉ (Reclaim s p).activeIDs) ∧
    (∀ q, q ≠ p → (Reclaim s p).peerMap q = s.peerMap q) ∧
    (s.peerMap p ≠ some 0 → (0 ∈ (Reclaim s p).activeIDs ↔ 0 ∈ s.activeIDs)) ∧
    (Reclaim s p).nextID = s.nextID ∧
    (s.peerMap p = none → Reclaim s p = s) ∧
    Reclaim (Reclaim s p) p = Reclaim s p := by
  refine ⟨?_, ?_, ?_, ?_, ?_, Reclaim_of_none s p, Reclaim_of_none _ p (Reclaim_peerMap_self s p)⟩
  · simp [GetForPeer, Reclaim_peerMap_self, UnknownPeerID]
  · intro r hr
    unfold Reclaim
    rw [hr]
    exact Finset.not_mem_erase r _
  · intro q hq
    unfold Reclaim
    cases s.peerMap p with
    | none => rfl
    | some r => simp [hq]
  · intro h0
    unfold Reclaim
    cases hp : s.peerMap p with
    | none => exact Iff.rfl
    | some r =>
      have hr : (0 : Nat) ≠ r := fun e => h0 (by rw [hp, e])
      simp [Finset.mem_erase, hr]
  · unfold Reclaim
    cases s.peerMap p with
    | none => rfl
    | some r => rfl

/-- C8. For every allocator state (every state a run of returning
`ReserveForPeer` and `Reclaim` calls produces from `newMempoolIDs`) and every
peer p: after `Reclaim(p)`, `GetForPeer(p)` is 0, the ID p held before is no
longer in the active set, and every other peer's mapping, 0's membership in
the active set and the cursor are unchanged; when p has no mapping the whole
state is unchanged, and `Reclaim(p)` twice equals `Reclaim(p)` once. -/
theorem Reclaim_post (calls : List Call) (s : mempoolIDs) (p : ID)
    (h : runCalls calls newMempoolIDs = Except.ok s) :
    GetForPeer (Reclaim s p) p = UnknownPeerID ∧
    (∀ r, s.peerMap p = some r → r ∉ (Reclaim s p).activeIDs) ∧
    (∀ q, q ≠ p → (Reclaim s p).peerMap q = s.peerMap q) ∧
    (0 ∈ (Reclaim s p).activeIDs ↔ 0 ∈ s.activeIDs) ∧
    (Reclaim s p).nextID = s.nextID ∧
    (s.peerMap p = none → Reclaim s p = s) ∧
    Reclaim (Reclaim s p) p = Reclaim s p := by
  obtain ⟨_, hval, _⟩ := IDsConsistent_runCalls calls _ s IDsConsistent_new h
  obtain ⟨h1, h2, h3, h4, h5, h6, h7⟩ := Reclaim_frame s p
  exact ⟨h1, h2, h3, h4 (fun hp => (hval p 0 hp).2 rfl), h5, h6, h7⟩

/-- C8, on the state after reserve a, reserve b, reclaiming a. -/
theorem Reclaim_post_witness :
    ∃ s, runCalls [Call.reserve "a", Call.reserve "b"] newMempoolIDs = Except.ok s ∧
      GetForPeer (Reclaim s "a") "a" = UnknownPeerID ∧
      (∀ r, s.peerMap "a" = some r → r ∉ (Reclaim s "a").activeIDs) ∧
      (∀ q, q ≠ "a" → (Reclaim s "a").peerMap q = s.peerMap q) ∧
      (0 ∈ (Reclaim s "a").activeIDs ↔ 0 ∈ s.activeIDs) ∧
      (Reclaim s "a").nextID = s.nextID ∧
      (s.peerMap "a" = none → Reclaim s "a" = s) ∧
      Reclaim (Reclaim s "a") "a" = Reclaim s "a" :=
  Exists.elim (exists_of_returned _ (by decide))
    (fun s hs => ⟨s, hs, Reclaim_post _ s "a" hs⟩)

/-! ## Reserving twice for one peer -/

/-- C10 fails on the run reserve a, reserve a, reclaim a from a fresh
allocator: both calls return, the second reservation overwrites the mapping of
a without releasing ID 1, and after the reclaim no peer is mapped while the
active set is `{0, 1}`, not `{0}`. -/
theorem reserve_twice_leaks_id :
    ∃ s, runCalls [Call.reserve "a", Call.reserve "a", Call.reclaim "a"] newMempoolIDs =
        Except.ok s ∧
      (∀ p, s.peerMap p = none) ∧ s.activeIDs = {0, 1} ∧
      ¬ (∀ i, i ∈ s.activeIDs ↔ (i = 0 ∨ ∃ p, s.peerMap p = some i)) := by
  have h1 := ReserveForPeer_of_search newMempoolIDs "a" 1 (by decide) (by decide)
  have h2 := ReserveForPeer_of_search
    ⟨fun q => if q = "a" then some 1 else newMempoolIDs.peerMap q, incr16 1,
      insert 1 newMempoolIDs.activeIDs⟩ "a" 2 (by decide) (by decide)
  have hrun : runCalls [Call.reserve "a", Call.reserve "a", Call.reclaim "a"] newMempoolIDs =
      Except.ok (Reclaim ⟨fun q => if q = "a" then some 2 else if q = "a" then some 1
        else newMempoolIDs.peerMap q, incr16 2, insert 2 (insert 1 newMempoolIDs.activeIDs)⟩
        "a") := by
    simp only [runCalls, Call.apply, h1, h2]
  refine ⟨_, hrun, ?_, ?_, ?_⟩
  · intro p
    by_cases hp : p = "a" <;> simp [Reclaim, newMempoolIDs, hp]
  · simp [Reclaim, newMempoolIDs]
    decide
  · intro hall
    obtain ⟨p, hp⟩ := ((hall 1).mp (by simp [Reclaim, newMempoolIDs])).resolve_left (by decide)
    by_cases hpa : p = "a" <;> simp [Reclaim, newMempoolIDs, hpa] at hp

/-- Where the leak is not: a reservation for a peer that holds no ID keeps the
active set equal to 0 plus the assigned IDs. -/
theorem ActiveExact_reserve_unmapped (s s1 : mempoolIDs) (p : ID) (hex : ActiveExact s)
    (hp : s.peerMap p = none) (h : ReserveForPeer s p = Except.ok s1) : ActiveExact s1 := by
  obtain ⟨c, _, hmap, _, hact⟩ := ReserveForPeer_ok_inv s s1 p h
  intro i
  rw [hact, hmap, Finset.mem_insert, hex i]
  constructor
  · rintro (rfl | rfl | ⟨q, hq⟩)
    · exact Or.inr ⟨p, by simp⟩
    · exact Or.inl rfl
    · refine Or.inr ⟨q, ?_⟩
      have hqp : q ≠ p := fun e => by rw [e, hp] at hq; exact Option.noConfusion hq
      simp [hqp, hq]
  · rintro (rfl | ⟨q, hq⟩)
    · exact Or.inr (Or.inl rfl)
    · by_cases hqp : q = p
      · simp only [hqp, if_true, Option.some.injEq] at hq
        exact Or.inl hq.symm
      · simp only [hqp, if_false] at hq
        exact Or.inr (Or.inr ⟨q, hq⟩)

/-- Reclaiming keeps the active set equal to 0 plus the assigned IDs, in a
state where IDs are unique and not 0. -/
theorem ActiveExact_reclaim (s : mempoolIDs) (p : ID) (hinv : IDsConsistent s)
    (hex : ActiveExact s) : ActiveExact (Reclaim s p) := by
  obtain ⟨_, hval, hinj⟩ := hinv
  unfold Reclaim
  cases hp : s.peerMap p with
  | none => exact hex
  | some r =>
    intro i
    simp only [Finset.mem_erase, hex i]
    constructor
    · rintro ⟨hir, rfl | ⟨q, hq⟩⟩
      · exact Or.inl rfl
      · refine Or.inr ⟨q, ?_⟩
        have hqp : q ≠ p := by
          intro e
          rw [e, hp] at hq
          exact hir (Option.some.inj hq).symm
        simp [hqp, hq]
    · rintro (rfl | ⟨q, hq⟩)
      · exact ⟨fun e => (hval p r hp).2 e.symm, Or.inl rfl⟩
      · by_cases hqp : q = p
        · simp [hqp] at hq
        · simp only [hqp, if_false] at hq
          refine ⟨?_, Or.inr ⟨q, hq⟩⟩
          intro e
          subst e
          exact hqp (hinj q p i hq hp)

/-! ## Saturation of the ID pool -/

theorem runCalls_append (a b : List Call) :
    ∀ s, runCalls (a ++ b) s =
      match runCalls a s with
      | Except.error e => Except.error e
      | Except.ok s1 => runCalls b s1 := by
  induction a with
  | nil => intro s; simp [runCalls]
  | cons c cs ih =>
    intro s
    simp only [List.cons_append, runCalls]
    cases c.apply s with
    | error e => rfl
    | ok s2 => exact ih s2

/-- One reservation in a state whose active set is `{0, ..., k}` with the
cursor at `k + 1`, below saturation. -/
theorem ReserveForPeer_fresh (s : mempoolIDs) (p : ID) (k : Nat)
    (hA : s.activeIDs = Finset.range (k + 1)) (hn : s.nextID = k + 1) (hk : k < 65534) :
    ReserveForPeer s p =
      Except.ok ⟨fun q => if q = p then some (k + 1) else s.peerMap q, k + 2,
        Finset.range (k + 2)⟩ := by
  have hfree : (s.nextID + 0) % 65536 ∉ s.activeIDs := by
    rw [hA, hn, Finset.mem_range]
    omega
  have hs := searchLoop_first_free s.activeIDs 0 65536 s.nextID (by omega) (by omega)
    (fun j hj => absurd hj (Nat.not_lt_zero j)) hfree
  have hval : (s.nextID + 0) % 65536 = k + 1 := by omega
  rw [hval] at hs
  have hcard : s.activeIDs.card ≠ 65535 := by
    rw [hA, Finset.card_range]
    omega
  rw [ReserveForPeer_of_search s p (k + 1) hcard hs]
  have hi : incr16 (k + 1) = k + 2 := by
    unfold incr16
    omega
  rw [hi, hA, ← Finset.range_succ]

theorem reserveAll_fresh (peers : List ID) :
    ∀ (s : mempoolIDs) (k : Nat), s.activeIDs = Finset.range (k + 1) → s.nextID = k + 1 →
      k + peers.length ≤ 65534 → peers.Nodup →
      ∃ s1, reserveAll peers s = Except.ok s1 ∧
        s1.activeIDs = Finset.range (k + peers.length + 1) ∧
        s1.nextID = k + peers.length + 1 ∧
        (∀ q, q ∉ peers → s1.peerMap q = s.peerMap q) ∧
        (∀ i p, peers[i]? = some p → s1.peerMap p = some (k + i + 1)) := by
  induction peers with
  | nil =>
    intro s k hA hn _ _
    exact ⟨s, rfl, by simpa using hA, by simpa using hn, fun _ _ => rfl, by simp⟩
  | cons p ps ih =>
    intro s k hA hn hlen hnd
    have hlen1 : k + 1 + ps.length ≤ 65534 := by
      simp only [List.length_cons] at hlen
      omega
    have hres := ReserveForPeer_fresh s p k hA hn (by omega)
    obtain ⟨hp, hps⟩ := List.nodup_cons.mp hnd
    obtain ⟨s1, hrun, hA1, hn1, hout, hin⟩ :=
      ih ⟨fun q => if q = p then some (k + 1) else s.peerMap q, k + 2, Finset.range (k + 2)⟩
        (k + 1) rfl rfl hlen1 hps
    refine ⟨s1, ?_, ?_, ?_, ?_, ?_⟩
    · simp only [reserveAll, List.map, runCalls, Call.apply, hres]
      exact hrun
    · rw [hA1, List.length_cons]
      congr 1
      omega
    · rw [hn1, List.length_cons]
      omega
    · intro q hq
      have hqp : q ≠ p := fun e => hq (e ▸ List.mem_cons_self p ps)
      have hqps : q ∉ ps := fun e => hq (List.mem_cons_of_mem p e)
      rw [hout q hqps]
      simp [hqp]
    · intro i q hi
      cases i with
      | zero =>
        simp only [List.getElem?_cons_zero, Option.some.injEq] at hi
        subst hi
        rw [hout p hp]
        simp
      | succ i =>
        simp only [List.getElem?_cons_succ] at hi
        rw [hin i q hi]
        congr 1
        omega

theorem peerName_injective : Function.Injective peerName := by
  intro a b h
  unfold peerName at h
  have h1 := congrArg (fun x : String => x.data.length) h
  simp only [List.length_replicate] at h1
  omega

theorem samplePeers_nodup (n : Nat) : (samplePeers n).Nodup :=
  List.Nodup.map peerName_injective (List.nodup_range n)

theorem samplePeers_length (n : Nat) : (samplePeers n).length = n := by
  rw [samplePeers, List.length_map, List.length_range]

/-- C2 as amended. From a fresh allocator, `ReserveForPeer` returns for each of
the first 65534 pairwise-distinct peers, assigning the IDs 1..65534 in order;
the active set then holds the 65535 values 0..65534, and a reservation for any
further peer panics. -/
theorem reserve_until_saturated (peers : List ID) (hnd : peers.Nodup)
    (hlen : peers.length = 65534) :
    ∃ s, reserveAll peers newMempoolIDs = Except.ok s ∧
      (∀ n, n ≤ 65534 → returned (reserveAll (peers.take n) newMempoolIDs) = true) ∧
      (∀ i p, peers[i]? = some p → s.peerMap p = some (i + 1)) ∧
      s.activeIDs = Finset.range 65535 ∧ s.activeIDs.card = 65535 ∧
      ∀ q, ReserveForPeer s q = Except.error Fault.panicMaxActiveIDs := by
  obtain ⟨s, hrun, hA, _, _, hin⟩ :=
    reserveAll_fresh peers newMempoolIDs 0 rfl rfl (by omega) hnd
  have hA1 : s.activeIDs = Finset.range 65535 := by
    rw [hA, hlen]
  have hcard : s.activeIDs.card = 65535 := by
    rw [hA1, Finset.card_range]
  refine ⟨s, hrun, ?_, ?_, hA1, hcard, fun q => ReserveForPeer_panic s q hcard⟩
  · intro n hn
    obtain ⟨sn, hsn, _⟩ := reserveAll_fresh (peers.take n) newMempoolIDs 0 rfl rfl
      (by rw [List.length_take]; omega) (List.Nodup.sublist (List.take_sublist n peers) hnd)
    rw [hsn]
    rfl
  · intro i p hi
    rw [hin i p hi]
    congr 1
    omega

/-- C2 as amended, on the 65534 peers `samplePeers 65534`. -/
theorem reserve_until_saturated_witness :
    ((samplePeers 65534).Nodup ∧ (samplePeers 65534).length = 65534) ∧
    ∃ s, reserveAll (samplePeers 65534) newMempoolIDs = Except.ok s ∧
      (∀ n, n ≤ 65534 →
        returned (reserveAll ((samplePeers 65534).take n) newMempoolIDs) = true) ∧
      (∀ i p, (samplePeers 65534)[i]? = some p → s.peerMap p = some (i + 1)) ∧
      s.activeIDs = Finset.range 65535 ∧ s.activeIDs.card = 65535 ∧
      ∀ q, ReserveForPeer s q = Except.error Fault.panicMaxActiveIDs :=
  ⟨⟨samplePeers_nodup 65534, samplePeers_length 65534⟩,
    reserve_until_saturated (samplePeers 65534) (samplePeers_nodup 65534)
      (samplePeers_length 65534)⟩

/-- C2 as stated fails: for the 65535 pairwise-distinct peers
`samplePeers 65535` the reservations do not all return; the run ends in the
panic of `nextPeerID`, raised by the 65535th reservation. -/
theorem reserve_65535_peers_counterexample :
    (samplePeers 65535).Nodup ∧ (samplePeers 65535).length = 65535 ∧
    returned (reserveAll ((samplePeers 65535).take 65534) newMempoolIDs) = true ∧
    reserveAll (samplePeers 65535) newMempoolIDs = Except.error Fault.panicMaxActiveIDs := by
  have hsplit : samplePeers 65535 = samplePeers 65534 ++ [peerName 65534] := by
    show (List.range (65534 + 1)).map peerName = _
    rw [List.range_succ, List.map_append]
    rfl
  obtain ⟨s, hrun, hA, _, _, _⟩ :=
    reserveAll_fresh (samplePeers 65534) newMempoolIDs 0 rfl rfl
      (by rw [samplePeers_length]) (samplePeers_nodup 65534)
  have hcard : s.activeIDs.card = 65535 := by
    rw [hA, samplePeers_length, Finset.card_range]
  have htake : (samplePeers 65535).take 65534 = samplePeers 65534 := by
    rw [hsplit]
    have := List.take_left (samplePeers 65534) [peerName 65534]
    rw [samplePeers_length] at this
    exact this
  refine ⟨samplePeers_nodup 65535, samplePeers_length 65535, ?_, ?_⟩
  · rw [htake, hrun]
    rfl
  · rw [hsplit]
    unfold reserveAll at hrun ⊢
    rw [List.map_append, runCalls_append, hrun]
    simp only [List.map, runCalls, Call.apply, ReserveForPeer_panic s _ hcard]

/-! ## The broadcaster -/

theorem advanceStep_effects (env : IterEnv) (effects : List BcastEffect) :
    (advanceStep env effects).1 = effects := by
  unfold advanceStep
  cases env.nextWait <;> rfl

/-- A `peer.Send` in the pass over a non-nil cursor happens only past the
persistent-origin check and the height check, for an element whose `senders`
lacks the destination ID, and carries that element's transaction. -/
theorem elementStep_send (config : MempoolConfig) (k : Nat) (env : IterEnv) (e : CElement)
    (ch : Nat) (msg : TxMessage)
    (h : BcastEffect.Send ch msg ∈ (elementStep config k env e).1) :
    k ∉ e.Value.senders ∧ ch = MempoolChannel ∧ msg = ⟨e.Value.tx⟩ ∧
      (config.BroadcastFromNonePersistent && e.Value.fromPersistent) = false ∧
      ∃ ph, env.peerState = some ph ∧ ¬ ph < wrapInt64 (e.Value.height - 1) := by
  unfold elementStep at h
  by_cases hp : (config.BroadcastFromNonePersistent && e.Value.fromPersistent) = true
  · simp [hp] at h
  · cases hs : env.peerState with
    | none => simp [hp, hs] at h
    | some ph =>
      by_cases hlag : ph < wrapInt64 (e.Value.height - 1)
      · simp [hp, hs, hlag] at h
      · by_cases hk : k ∈ e.Value.senders
        · simp [hp, hs, hlag, hk, advanceStep_effects] at h
        · refine ⟨hk, ?_⟩
          have hmem : BcastEffect.Send ch msg = BcastEffect.Send MempoolChannel ⟨e.Value.tx⟩ := by
            by_cases hsend : env.sendSuccess = true
            · simpa [hp, hs, hlag, hk, hsend, advanceStep_effects] using h
            · simpa [hp, hs, hlag, hk, hsend] using h
          injection hmem with h1 h2
          exact ⟨h1, h2, by simpa using hp, ph, rfl, hlag⟩

/-- A `peer.Send` in a pass is a send of the pass over the element under the
cursor. -/
theorem iteration_send (config : MempoolConfig) (k : Nat) (env : IterEnv)
    (next : Option CElement) (ch : Nat) (msg : TxMessage)
    (h : BcastEffect.Send ch msg ∈ (broadcastTxIteration config k env next).1) :
    ∃ e, elementUnderCursor env next = some e ∧
      BcastEffect.Send ch msg ∈ (elementStep config k env e).1 := by
  unfold broadcastTxIteration at h
  by_cases hrun : (!env.memRRunning || !env.peerRunning) = true
  · simp [hrun] at h
  · rw [if_neg hrun] at h
    cases next with
    | some e => exact ⟨e, rfl, h⟩
    | none =>
      cases hf : env.frontWait with
      | txsAvailable front =>
        cases front with
        | some e =>
          refine ⟨e, by simp [elementUnderCursor, hf], ?_⟩
          simpa [hf] using h
        | none => simp [hf] at h
      | peerQuit => simp [hf] at h
      | reactorQuit => simp [hf] at h

/-- C4. In every pass of the loop of `broadcastTxRoutine` for a destination
peer with numeric ID k: when the element under the cursor has k in `senders`,
the pass issues no `peer.Send`; and every `peer.Send` the pass issues is on
the mempool channel, carries `TxMessage{tx}` of the element under the cursor,
and that element's `senders` does not contain k. -/
theorem no_echo (config : MempoolConfig) (k : Nat) (env : IterEnv) (next : Option CElement) :
    (∀ e, elementUnderCursor env next = some e → k ∈ e.Value.senders →
      ∀ ch msg, BcastEffect.Send ch msg ∉ (broadcastTxIteration config k env next).1) ∧
    (∀ ch msg, BcastEffect.Send ch msg ∈ (broadcastTxIteration config k env next).1 →
      ∃ e, elementUnderCursor env next = some e ∧ k ∉ e.Value.senders ∧
        ch = MempoolChannel ∧ msg = ⟨e.Value.tx⟩) := by
  have hsend : ∀ ch msg, BcastEffect.Send ch msg ∈ (broadcastTxIteration config k env next).1 →
      ∃ e, elementUnderCursor env next = some e ∧ k ∉ e.Value.senders ∧
        ch = MempoolChannel ∧ msg = ⟨e.Value.tx⟩ := by
    intro ch msg h
    obtain ⟨e, he, hmem⟩ := iteration_send config k env next ch msg h
    obtain ⟨hk, hch, hmsg, _⟩ := elementStep_send config k env e ch msg hmem
    exact ⟨e, he, hk, hch, hmsg⟩
  refine ⟨?_, hsend⟩
  intro e he hk ch msg h
  obtain ⟨e1, he1, hk1, _⟩ := hsend ch msg h
  rw [he] at he1
  exact hk1 (Option.some.inj he1 ▸ hk)

/-- C4, on the two-peer scenario: the entry `0xAA` came from the peer with
ID 1, so the pass of the broadcaster for that peer sends nothing. -/
theorem no_echo_witness :
    (1 ∈ ({1} : Finset Nat)) ∧
    ∀ ch msg, BcastEffect.Send ch msg ∉
      (broadcastTxIteration ⟨true, false, false⟩ 1
        ⟨true, true, FrontWait.peerQuit, some 100, true, NextWait.nextReady none⟩
        (some ⟨7, ⟨100, [0xAA], {1}, false⟩⟩)).1 :=
  ⟨by decide,
    (no_echo ⟨true, false, false⟩ 1
      ⟨true, true, FrontWait.peerQuit, some 100, true, NextWait.nextReady none⟩
      (some ⟨7, ⟨100, [0xAA], {1}, false⟩⟩)).1 ⟨7, ⟨100, [0xAA], {1}, false⟩⟩ rfl (by decide)⟩

/-- The pass over a non-nil cursor, when the peer has no peer state or its
height is below the wrapped `height - 1`: no call but at most one sleep, and the
cursor is unchanged. -/
theorem elementStep_gated (config : MempoolConfig) (k : Nat) (env : IterEnv) (e : CElement)
    (h : env.peerState = none ∨
      ∃ ph, env.peerState = some ph ∧ ph < wrapInt64 (e.Value.height - 1)) :
    (elementStep config k env e).2 = Control.again (some e) ∧
      ∀ ch msg, BcastEffect.Send ch msg ∉ (elementStep config k env e).1 := by
  unfold elementStep
  by_cases hp : (config.BroadcastFromNonePersistent && e.Value.fromPersistent) = true
  · simp [hp]
  · rcases h with hs | ⟨ph, hs, hlag⟩
    · simp [hp, hs]
    · simp [hp, hs, hlag]

/-- C5. In every pass of the loop of `broadcastTxRoutine` over an element of
height H (an `int64`): when the peer has no peer state, or reports an `int64`
height below H - 1, the pass issues no `peer.Send` and either goes round again
with the cursor on the same element or returns because the reactor or the peer
has stopped; and the pass issues a `peer.Send` only when the peer reports a
height of at least H - 1. -/
theorem height_gate (config : MempoolConfig) (k : Nat) (env : IterEnv)
    (next : Option CElement) (e : CElement)
    (hcur : elementUnderCursor env next = some e) (hH : isInt64 e.Value.height) :
    ((env.peerState = none ∨
        ∃ ph, env.peerState = some ph ∧ isInt64 ph ∧ ph < e.Value.height - 1) →
      (∀ ch msg, BcastEffect.Send ch msg ∉ (broadcastTxIteration config k env next).1) ∧
      ((broadcastTxIteration config k env next).2 = Control.again (some e) ∨
        ((broadcastTxIteration config k env next).2 = Control.exit ∧
          (env.memRRunning = false ∨ env.peerRunning = false)))) ∧
    (∀ ch msg, BcastEffect.Send ch msg ∈ (broadcastTxIteration config k env next).1 →
      ∃ ph, env.peerState = some ph ∧ e.Value.height - 1 ≤ ph) := by
  obtain ⟨hlo, hhi⟩ := hH
  constructor
  · intro hgate
    have hgate1 : env.peerState = none ∨
        ∃ ph, env.peerState = some ph ∧ ph < wrapInt64 (e.Value.height - 1) := by
      rcases hgate with hs | ⟨ph, hs, ⟨hplo, _⟩, hlt⟩
      · exact Or.inl hs
      · refine Or.inr ⟨ph, hs, ?_⟩
        unfold wrapInt64
        omega
    have hstep := elementStep_gated config k env e hgate1
    constructor
    · intro ch msg hmem
      obtain ⟨e1, he1, hmem1⟩ := iteration_send config k env next ch msg hmem
      rw [hcur] at he1
      exact hstep.2 ch msg (Option.some.inj he1 ▸ hmem1)
    · unfold broadcastTxIteration
      by_cases hrun : (!env.memRRunning || !env.peerRunning) = true
      · rw [if_pos hrun]
        right
        refine ⟨rfl, ?_⟩
        cases hm : env.memRRunning <;> cases hq : env.peerRunning <;> simp [hm, hq] at hrun ⊢
      · rw [if_neg hrun]
        left
        cases next with
        | some e1 =>
          simp only [elementUnderCursor, Option.some.injEq] at hcur
          subst hcur
          exact hstep.1
        | none =>
          cases hf : env.frontWait with
          | txsAvailable front =>
            simp only [elementUnderCursor, hf] at hcur
            subst hcur
            exact hstep.1
          | peerQuit => simp [elementUnderCursor, hf] at hcur
          | reactorQuit => simp [elementUnderCursor, hf] at hcur
  · intro ch msg hmem
    obtain ⟨e1, he1, hmem1⟩ := iteration_send config k env next ch msg hmem
    rw [hcur] at he1
    have he : e = e1 := Option.some.inj he1
    subst he
    obtain ⟨_, _, _, _, ph, hs, hlag⟩ := elementStep_send config k env e ch msg hmem1
    refine ⟨ph, hs, ?_⟩
    unfold wrapInt64 at hlag
    omega

/-- C5, on the height-gate scenario: entry of height 100, peer at height 98;
the pass sends nothing and stays on the element. -/
theorem height_gate_witness :
    (elementUnderCursor ⟨true, true, FrontWait.peerQuit, some 98, true, NextWait.nextReady none⟩
        (some ⟨7, ⟨100, [0xBB], {}, false⟩⟩) = some ⟨7, ⟨100, [0xBB], {}, false⟩⟩ ∧
      isInt64 (100 : Int)) ∧
    (∀ ch msg, BcastEffect.Send ch msg ∉
      (broadcastTxIteration ⟨true, false, false⟩ 3
        ⟨true, true, FrontWait.peerQuit, some 98, true, NextWait.nextReady none⟩
        (some ⟨7, ⟨100, [0xBB], {}, false⟩⟩)).1) ∧
    ((broadcastTxIteration ⟨true, false, false⟩ 3
        ⟨true, true, FrontWait.peerQuit, some 98, true, NextWait.nextReady none⟩
        (some ⟨7, ⟨100, [0xBB], {}, false⟩⟩)).2 = Control.again (some ⟨7, ⟨100, [0xBB], {}, false⟩⟩) ∨
      ((broadcastTxIteration ⟨true, false, false⟩ 3
        ⟨true, true, FrontWait.peerQuit, some 98, true, NextWait.nextReady none⟩
        (some ⟨7, ⟨100, [0xBB], {}, false⟩⟩)).2 = Control.exit ∧
        ((true : Bool) = false ∨ (true : Bool) = false))) :=
  ⟨⟨rfl, by unfold isInt64; omega⟩,
    (height_gate ⟨true, false, false⟩ 3
      ⟨true, true, FrontWait.peerQuit, some 98, true, NextWait.nextReady none⟩
      (some ⟨7, ⟨100, [0xBB], {}, false⟩⟩) ⟨7, ⟨100, [0xBB], {}, false⟩⟩ rfl
      (show isInt64 (100 : Int) by unfold isInt64; omega)).1
      (Or.inr ⟨98, rfl, by unfold isInt64; omega, show (98 : Int) < 100 - 1 by omega⟩)⟩

/-- One pass over an element from a persistent peer with
`BroadcastFromNonePersistent` set: the `continue` is taken with no call made
and the cursor unchanged; the advance step is not reached. -/
theorem iteration_persistent_origin (config : MempoolConfig) (k : Nat) (env : IterEnv)
    (e : CElement) (hcfg : config.BroadcastFromNonePersistent = true)
    (hp : e.Value.fromPersistent = true)
    (hrun : env.memRRunning = true ∧ env.peerRunning = true) :
    broadcastTxIteration config k env (some e) = ([], Control.again (some e)) := by
  unfold broadcastTxIteration elementStep
  simp [hrun.1, hrun.2, hcfg, hp]

/-- C6 fails on the code. With `BroadcastFromNonePersistent` set and the cursor
on an element that came from a persistent peer, then for every finite run of
observations in which the reactor and the peer keep running (whatever the
element's next-ready signal and successor are), the loop makes no call at all
and is still on the same element: the cursor never moves to the successor. -/
theorem persistent_origin_never_advances (config : MempoolConfig) (k : Nat) (e : CElement)
    (envs : List IterEnv) (hcfg : config.BroadcastFromNonePersistent = true)
    (hp : e.Value.fromPersistent = true)
    (hrun : ∀ env ∈ envs, env.memRRunning = true ∧ env.peerRunning = true) :
    broadcastLoop config k envs (some e) = ([], some (some e)) := by
  induction envs with
  | nil => rfl
  | cons env rest ih =>
    have h1 := iteration_persistent_origin config k env e hcfg hp
      (hrun env (List.mem_cons_self env rest))
    have h2 := ih (fun x hx => hrun x (List.mem_cons_of_mem env hx))
    simp only [broadcastLoop, h1, h2, List.append_nil]

/-- C6 fails, on three passes over an element from a persistent peer whose
successor is linked and ready, for an up-to-date peer that is not among the
senders: nothing is sent and the cursor is still on the element. -/
theorem persistent_origin_never_advances_witness :
    ((true : Bool) = true ∧ (true : Bool) = true ∧
      ∀ env ∈ List.replicate 3 (⟨true, true, FrontWait.peerQuit, some 100, true,
          NextWait.nextReady (some ⟨8, ⟨100, [0xCC], {}, false⟩⟩)⟩ : IterEnv),
        env.memRRunning = true ∧ env.peerRunning = true) ∧
    broadcastLoop ⟨true, false, true⟩ 2
      (List.replicate 3 (⟨true, true, FrontWait.peerQuit, some 100, true,
          NextWait.nextReady (some ⟨8, ⟨100, [0xCC], {}, false⟩⟩)⟩ : IterEnv))
      (some ⟨7, ⟨100, [0xBB], {}, true⟩⟩) = ([], some (some ⟨7, ⟨100, [0xBB], {}, true⟩⟩)) :=
  ⟨⟨rfl, rfl, fun env henv => by rw [List.eq_of_mem_replicate henv]; exact ⟨rfl, rfl⟩⟩,
    persistent_origin_never_advances ⟨true, false, true⟩ 2 ⟨7, ⟨100, [0xBB], {}, true⟩⟩
      (List.replicate 3 (⟨true, true, FrontWait.peerQuit, some 100, true,
          NextWait.nextReady (some ⟨8, ⟨100, [0xCC], {}, false⟩⟩)⟩ : IterEnv))
      rfl rfl (fun env henv => by rw [List.eq_of_mem_replicate henv]; exact ⟨rfl, rfl⟩)⟩

/-! ## The codec and the ingress handler -/

/-- C7. For every byte string longer than 1048576, `decodeMsg` returns its size
error whatever the codec would do with the bytes (the codec is not consulted);
every byte string that `decodeMsg` decodes has length at most 1048576; and
whenever `decodeMsg` returns an error, `receiveImpl` logs, calls
`StopPeerForError(src, err)` with that error, and makes no `CheckTxWithInfo`
call. -/
theorem decodeMsg_size_cap (unmarshal : Bytes → Except String MempoolMessage)
    (ids : mempoolIDs) (isPersistent : ID → Bool)
    (checkTx : Bytes → TxInfo → Option AdmitError) (chID : Nat) (src : ID) (bz : Bytes) :
    (bz.length > 1048576 →
      ∀ u, decodeMsg u bz = Except.error (DecodeError.exceedsMaxSize bz.length 1048576)) ∧
    (∀ msg, decodeMsg unmarshal bz = Except.ok msg → bz.length ≤ 1048576) ∧
    (∀ err, decodeMsg unmarshal bz = Except.error err →
      receiveImpl unmarshal ids isPersistent checkTx chID src bz =
        [RecvEffect.logError "Error decoding message", RecvEffect.StopPeerForError src err] ∧
      RecvEffect.StopPeerForError src err ∈
        receiveImpl unmarshal ids isPersistent checkTx chID src bz ∧
      ∀ tx info, RecvEffect.CheckTxWithInfo tx info ∉
        receiveImpl unmarshal ids isPersistent checkTx chID src bz) := by
  refine ⟨?_, ?_, ?_⟩
  · intro hlen u
    unfold decodeMsg
    rw [if_pos (by simpa [maxMsgSize] using hlen)]
    rfl
  · intro msg h
    by_contra hlen
    unfold decodeMsg at h
    rw [if_pos (by simpa [maxMsgSize] using hlen)] at h
    exact Except.noConfusion h
  · intro err h
    have hr : receiveImpl unmarshal ids isPersistent checkTx chID src bz =
        [RecvEffect.logError "Error decoding message",
          RecvEffect.StopPeerForError src err] := by
      unfold receiveImpl
      rw [h]
    rw [hr]
    refine ⟨rfl, by simp, ?_⟩
    intro tx info hmem
    simp at hmem

/-- C7, on the oversize scenario: a frame of 1048577 bytes from peer `d` with a
codec that would accept anything; the peer is stopped with the size error and
nothing is admitted. -/
theorem decodeMsg_size_cap_witness :
    (List.replicate 1048577 (0 : UInt8)).length > 1048576 ∧
    receiveImpl (fun bz => Except.ok (MempoolMessage.txMessage ⟨bz⟩)) newMempoolIDs
        (fun _ => false) (fun _ _ => none) 0x30 "d" (List.replicate 1048577 (0 : UInt8)) =
      [RecvEffect.logError "Error decoding message",
        RecvEffect.StopPeerForError "d"
          (DecodeError.exceedsMaxSize (List.replicate 1048577 (0 : UInt8)).length 1048576)] :=
  ⟨by rw [List.length_replicate]; decide,
    ((decodeMsg_size_cap (fun bz => Except.ok (MempoolMessage.txMessage ⟨bz⟩)) newMempoolIDs
        (fun _ => false) (fun _ _ => none) 0x30 "d" (List.replicate 1048577 (0 : UInt8))).2.2
      _ ((decodeMsg_size_cap (fun bz => Except.ok (MempoolMessage.txMessage ⟨bz⟩)) newMempoolIDs
        (fun _ => false) (fun _ _ => none) 0x30 "d" (List.replicate 1048577 (0 : UInt8))).1
        (by rw [List.length_replicate]; decide) _)).1⟩

/-! ## `RocksDB.Has` -/

/-- C9 fails on the code. `RocksDB.Has` returns true exactly when the key is
absent, that is when `Get` returns nil: after `Set(key, value)`, `Get(key)`
returns the value and `Has(key)` returns false; for a key that is absent,
`Has(key)` returns true. -/
theorem RocksDB_Has_inverted (nonNilBytes : Option (List UInt8) → List UInt8)
    (store : db.RocksDB) (key value : Option (List UInt8)) :
    (∃ store1, db.RocksDB.Set nonNilBytes store key value = Except.ok store1 ∧
      db.RocksDB.Get nonNilBytes store1 key = Except.ok (some (nonNilBytes value)) ∧
      db.RocksDB.Has nonNilBytes store1 key = Except.ok false) ∧
    (∃ store2, db.RocksDB.Delete nonNilBytes store key = Except.ok store2 ∧
      db.RocksDB.Get nonNilBytes store2 key = Except.ok none ∧
      db.RocksDB.Has nonNilBytes store2 key = Except.ok true) ∧
    (∃ res, db.RocksDB.Get nonNilBytes store key = Except.ok res ∧
      db.RocksDB.Has nonNilBytes store key = Except.ok (res == none)) := by
  refine ⟨⟨_, rfl, ?_, ?_⟩, ⟨_, rfl, ?_, ?_⟩, ⟨_, rfl, rfl⟩⟩
  · simp [db.RocksDB.Get, db.gorocksdbGetBytes]
  · simp [db.RocksDB.Has, db.RocksDB.Get, db.gorocksdbGetBytes]
  · simp [db.RocksDB.Get, db.gorocksdbGetBytes]
  · simp [db.RocksDB.Has, db.RocksDB.Get, db.gorocksdbGetBytes]
